import Mathlib

/-!
LatinIME `UnigramDictionary`: node codec reads, flag masks, ranked list, word validation.

A shallow embedding of `native/src/unigram_dictionary.h`.

* The macros `ADDRESS_MASK`, `FLAG_*` and the four inline reads `getFirstBitOfByte`,
  `getSecondBitOfByte`, `getTerminal`, `getCount` are translated from the header.
* `mDict` is a raw `unsigned char *`; the class keeps no buffer length. It is embedded as the
  total map from an `int` offset to the byte the memory holds at `mDict + offset`.
* A member function taking `int *pos` is embedded by explicit state passing over `ReadState`
  (the object and the caller's cursor variable): it returns its result and the state after it.
-/

namespace latinime

/-! ## Machine types -/

/-- An `unsigned char`: one byte, a value in `0..255`. -/
abbrev UChar := Fin 256

/-- Largest value of a 32-bit `int`. -/
def INT_MAX : Int := 2147483647

/-- Two's-complement wrap of a mathematical integer into the 32-bit `int` range. -/
def wrapInt (x : Int) : Int := (x + 2147483648) % 4294967296 - 2147483648

/-! ## Macros of the header -/

/-- Source: `#define ADDRESS_MASK 0x3FFFFF`. -/
def ADDRESS_MASK : Nat := 0x3FFFFF

/-- Source: `#define FLAG_ADDRESS_MASK 0x40`. -/
def FLAG_ADDRESS_MASK : Nat := 0x40

/-- Source: `#define FLAG_TERMINAL_MASK 0x80`. -/
def FLAG_TERMINAL_MASK : Nat := 0x80

/-- Source: `#define FLAG_BIGRAM_READ 0x80`. -/
def FLAG_BIGRAM_READ : Nat := 0x80

/-- Source: `#define FLAG_BIGRAM_CHILDEXIST 0x40`. -/
def FLAG_BIGRAM_CHILDEXIST : Nat := 0x40

/-- Source: `#define FLAG_BIGRAM_CONTINUED 0x80`. -/
def FLAG_BIGRAM_CONTINUED : Nat := 0x80

/-- Source: `#define FLAG_BIGRAM_FREQ 0x7F`. -/
def FLAG_BIGRAM_FREQ : Nat := 0x7F

/-! ## The object and the cursor -/

/-- The part of `class UnigramDictionary` the reads touch: `unsigned char *mDict`.
`mDict i` is the byte found at `mDict + i`; no length is stored with the pointer. -/
structure UnigramDictionary where
  mDict : Int → UChar

/-- State threaded through a read: the object (`this`) and the caller's `*pos`. -/
structure ReadState where
  dict : UnigramDictionary
  pos : Int

/-- A dictionary buffer: `n` bytes whose positions `0..n-1` and the position one past the
end are values of an `int` cursor. -/
structure Buffer where
  bytes : List UChar
  addressable : (bytes.length : Int) ≤ INT_MAX

/-- The object whose `mDict` points at `buf`: offsets `0..n-1` hold the buffer's bytes, any
other offset holds whatever byte `beyond` the rest of the memory has there. -/
def UnigramDictionary.load (buf : Buffer) (beyond : Int → UChar) : UnigramDictionary :=
  ⟨fun i => if 0 ≤ i then (buf.bytes[i.toNat]?).getD (beyond i) else beyond i⟩

/-! ## The inline reads of the header -/

/-- Source: `bool getFirstBitOfByte(int *pos) { return (mDict[*pos] & 0x80) > 0; }`. -/
def getFirstBitOfByte (s : ReadState) : Bool × ReadState :=
  (decide (((s.dict.mDict s.pos).val &&& 0x80) > 0), s)

/-- Source: `bool getSecondBitOfByte(int *pos) { return (mDict[*pos] & 0x40) > 0; }`. -/
def getSecondBitOfByte (s : ReadState) : Bool × ReadState :=
  (decide (((s.dict.mDict s.pos).val &&& 0x40) > 0), s)

/-- Source: `bool getTerminal(int *pos) { return (mDict[*pos] & FLAG_TERMINAL_MASK) > 0; }`. -/
def getTerminal (s : ReadState) : Bool × ReadState :=
  (decide (((s.dict.mDict s.pos).val &&& FLAG_TERMINAL_MASK) > 0), s)

/-- Source: `int getCount(int *pos) { return mDict[(*pos)++] & 0xFF; }`.
The byte at the old cursor is read, the cursor is post-incremented (as a 32-bit `int`). -/
def getCount (s : ReadState) : Nat × ReadState :=
  ((s.dict.mDict s.pos).val &&& 0xFF, { s with pos := wrapInt (s.pos + 1) })

/-- One of the three reads that only inspect the byte under the cursor. -/
inductive Peek where
  | terminal
  | firstBit
  | secondBit
  deriving DecidableEq, Repr

/-- The read a `Peek` stands for. -/
def Peek.run : Peek → ReadState → Bool × ReadState
  | .terminal => getTerminal
  | .firstBit => getFirstBitOfByte
  | .secondBit => getSecondBitOfByte

/-- Runs a sequence of inspecting reads one after the other, each on the state its
predecessor left; returns the results in call order and the last state. -/
def runPeeks : List Peek → ReadState → List Bool × ReadState
  | [], s => ([], s)
  | k :: ks, s =>
    let r := k.run s
    let rest := runPeeks ks r.2
    (r.1 :: rest.1, rest.2)

/-! ## Explicit child address -/

/-- Modelled from the spec: the explicit branch of `getAddress`, which the header only declares
(`int getAddress(int *pos);`). "Read the next 3 bytes as a big-endian 22-bit value masked to
the valid address range; this becomes the absolute offset of the node's children." The three
bytes start at the flag byte under the cursor. -/
def getAddressExplicit (s : ReadState) : Nat :=
  ((s.dict.mDict s.pos).val * 65536 + (s.dict.mDict (s.pos + 1)).val * 256
    + (s.dict.mDict (s.pos + 2)).val) &&& ADDRESS_MASK

/-! ## Ranked candidate list -/

/-- An `unsigned short`: one character code of a word. -/
abbrev UShort := Fin 65536

/-- One occupied slot of the ranked candidate list: the word kept in `mOutputChars` and the
score kept at the same index of `mFrequencies`. -/
structure Candidate where
  word : List UShort
  frequency : Int
  deriving DecidableEq, Repr

/-- Modelled from the spec: the slot `addWord` inserts at; `addWord` is only declared in the
header. "Ties broken by insertion order (first found wins position)": the new entry goes
before the first stored entry that scores strictly less. -/
def insertionPoint (frequency : Int) : List Candidate → Nat
  | [] => 0
  | e :: es => if frequency > e.frequency then 0 else insertionPoint frequency es + 1

/-- Modelled from the spec: `bool addWord(unsigned short *word, int length, int frequency)`,
declared in the header without a body. The list is the occupied slots, first to last, of a
list of capacity `MAX_WORDS` (a count of slots). "Insertion into the ranked list is an ordered
insert-and-truncate at capacity MAX_WORDS"; the result tells whether the word was stored. -/
def addWord (MAX_WORDS : Nat) (slots : List Candidate) (word : List UShort) (frequency : Int) :
    Bool × List Candidate :=
  let insertAt := insertionPoint frequency slots
  if insertAt < MAX_WORDS then
    (true, (slots.take insertAt ++ ⟨word, frequency⟩ :: slots.drop insertAt).take MAX_WORDS)
  else
    (false, slots)

/-- The list after a sequence of `addWord` calls on an empty list. -/
def addWords (MAX_WORDS : Nat) (calls : List Candidate) : List Candidate :=
  calls.foldl (fun slots call => (addWord MAX_WORDS slots call.word call.frequency).2) []

/-- Stored frequencies, first slot to last occupied slot. -/
def frequencies (slots : List Candidate) : List Int := slots.map Candidate.frequency

/-- The list invariant: frequencies non-increasing from the first slot on, and at most
`MAX_WORDS` occupied slots. -/
def Ranked (MAX_WORDS : Nat) (slots : List Candidate) : Prop :=
  (frequencies slots).Pairwise (fun a b => a ≥ b) ∧ slots.length ≤ MAX_WORDS

/-! ## Word validation -/

/-- A decoded trie node: character code, terminal flag, frequency, and the cursor at which its
children's sibling group begins (implicit or explicit address, already resolved). -/
structure Node where
  c : UShort
  terminal : Bool
  frequency : Nat
  children : Int
  deriving DecidableEq, Repr

/-- Modelled from the spec: the per-sibling part of the node codec and the case mapping. The
header only declares `getChar`, `getFreq`, `getAddress` and `toLowerCase`; their byte layout is
not in the source, so the decode of one sibling (fields and the cursor behind it) and the "fixed
case-mapping (upper→lower)" are taken as given. -/
structure NodeCodec where
  readNode : UnigramDictionary → Int → Node × Int
  toLowerCase : UShort → UShort

/-- Modelled from the spec: the sibling loop of the exact walk. "Walks children at each depth,
matching the exact character (case-folded) with no alternatives": the siblings are decoded one
after the other; a sibling whose folded character equals the folded typed character and that
passes `onMatch` ends the loop with success; the set exhausted without one is failure. A
sibling that matches the character but fails `onMatch` does not end the loop: two stored
characters can fold to the same one, so the remaining siblings are still tried. -/
def siblingLoop (codec : NodeCodec) (dict : UnigramDictionary) (c : UShort)
    (onMatch : Node → Bool) : Nat → Int → Bool
  | 0, _ => false
  | count + 1, pos =>
    let r := codec.readNode dict pos
    if codec.toLowerCase r.1.c = codec.toLowerCase c ∧ onMatch r.1 = true then true
    else siblingLoop codec dict c onMatch count r.2

/-- Modelled from the spec: `isValidWordRec`, declared in the header without a body. The
sibling count at `pos` is read with `getCount`; at the last character a matching sibling must
be terminal ("true only if the final node is reached and marked terminal"), before it the walk
goes on in the matching sibling's children with the rest of the word. -/
def isValidWordRec (codec : NodeCodec) (dict : UnigramDictionary) : List UShort → Int → Bool
  | [], _ => false
  | [c], pos =>
    let count := getCount ⟨dict, pos⟩
    siblingLoop codec dict c (fun n => n.terminal) count.1 count.2.pos
  | c :: c2 :: rest, pos =>
    let count := getCount ⟨dict, pos⟩
    siblingLoop codec dict c (fun n => isValidWordRec codec dict (c2 :: rest) n.children)
      count.1 count.2.pos

/-- Modelled from the spec: `bool isValidWord(unsigned short *word, int length)`, declared in
the header without a body: the exact walk from the root of the trie. -/
def isValidWord (codec : NodeCodec) (dict : UnigramDictionary) (root : Int)
    (word : List UShort) : Bool :=
  isValidWordRec codec dict word root

/-- The `count` siblings decoded one after the other from `pos`. -/
def siblingsFrom (codec : NodeCodec) (dict : UnigramDictionary) : Nat → Int → List Node
  | 0, _ => []
  | count + 1, pos =>
    let r := codec.readNode dict pos
    r.1 :: siblingsFrom codec dict count r.2

/-- The sibling group stored at `pos`: its count byte, then that many nodes. -/
def siblings (codec : NodeCodec) (dict : UnigramDictionary) (pos : Int) : List Node :=
  let count := getCount ⟨dict, pos⟩
  siblingsFrom codec dict count.1 count.2.pos

/-- A path of trie nodes from `pos`: the first node is a sibling of the group at `pos`, each
further node is a sibling of the group its predecessor's children pointer leads to. -/
def IsPath (codec : NodeCodec) (dict : UnigramDictionary) : Int → List Node → Prop
  | _, [] => True
  | pos, n :: ns => n ∈ siblings codec dict pos ∧ IsPath codec dict n.children ns

/-- The word has a path: one node per character, equal folded characters, last node terminal. -/
def HasWordPath (codec : NodeCodec) (dict : UnigramDictionary) (root : Int)
    (word : List UShort) : Prop :=
  ∃ path : List Node, IsPath codec dict root path ∧ path.length = word.length ∧
    path.map (fun n => codec.toLowerCase n.c) = word.map codec.toLowerCase ∧
    ∃ last, path.getLast? = some last ∧ last.terminal = true

/-! ## Example data -/

/-- The one-byte buffer `85`. -/
def oneByteBuffer : Buffer := ⟨[0x85], by decide⟩

/-- The one-byte buffer `C5`: `85` with bit `0x40` set as well. -/
def flaggedBuffer : Buffer := ⟨[0xC5], by decide⟩

/-- Memory that is zero outside the buffer. -/
def zeroBeyond : Int → UChar := fun _ => 0

/-- An example case mapping for evaluating the walk: ASCII `A..Z` to `a..z`. -/
def asciiLower (c : UShort) : UShort :=
  if 65 ≤ c.val ∧ c.val ≤ 90 then c + 32 else c

/-- An example node layout for evaluating the walk: one character byte, then the three-byte
field holding the terminal flag and the child address; the next sibling follows the field. -/
def exampleCodec : NodeCodec where
  readNode := fun dict pos =>
    (⟨((dict.mDict pos).val : Nat), (getTerminal ⟨dict, pos + 1⟩).1, 0,
        (getAddressExplicit ⟨dict, pos + 1⟩ : Nat)⟩, pos + 4)
  toLowerCase := asciiLower

/-- An example dictionary in the layout of `exampleCodec` holding the one word `cat`: three
sibling groups of one node each, at offsets 0, 5 and 10. -/
def catBuffer : Buffer :=
  ⟨[1, 0x63, 0x40, 0, 5, 1, 0x61, 0x40, 0, 10, 1, 0x74, 0x80, 0, 0], by decide⟩

/-! ## Bit facts on natural numbers -/

theorem and_128 (n : Nat) : n &&& 128 = if n / 128 % 2 = 1 then 128 else 0 := by
  have h := Nat.and_two_pow n 7
  rw [Nat.testBit_to_div_mod] at h
  norm_num at h
  rw [h]
  by_cases c : n / 128 % 2 = 1 <;> simp [c]

theorem and_64 (n : Nat) : n &&& 64 = if n / 64 % 2 = 1 then 64 else 0 := by
  have h := Nat.and_two_pow n 6
  rw [Nat.testBit_to_div_mod] at h
  norm_num at h
  rw [h]
  by_cases c : n / 64 % 2 = 1 <;> simp [c]

theorem and_255 (n : Nat) : n &&& 255 = n % 256 := by
  have h := Nat.and_pow_two_sub_one_eq_mod n 8
  norm_num at h
  exact h

theorem and_127 (n : Nat) : n &&& 127 = n % 128 := by
  have h := Nat.and_pow_two_sub_one_eq_mod n 7
  norm_num at h
  exact h

theorem and_ADDRESS_MASK (n : Nat) : n &&& ADDRESS_MASK = n % 4194304 := by
  have h := Nat.and_pow_two_sub_one_eq_mod n 22
  norm_num at h
  exact h

/-! ## What the reads compute, for every state -/

theorem load_inRange (buf : Buffer) (beyond : Int → UChar) (p : Nat)
    (h : p < buf.bytes.length) :
    (UnigramDictionary.load buf beyond).mDict (p : Int) = buf.bytes[p] := by
  simp [UnigramDictionary.load, h]

theorem load_beyond (buf : Buffer) (beyond : Int → UChar) (p : Int)
    (h : (buf.bytes.length : Int) ≤ p) :
    (UnigramDictionary.load buf beyond).mDict p = beyond p := by
  have h0 : 0 ≤ p := le_trans (Int.ofNat_nonneg _) h
  have h1 : buf.bytes.length ≤ p.toNat := by omega
  simp [UnigramDictionary.load, h0, List.getElem?_eq_none h1]

theorem getCount_eq (s : ReadState) :
    getCount s = ((s.dict.mDict s.pos).val, { s with pos := wrapInt (s.pos + 1) }) := by
  have hb := (s.dict.mDict s.pos).isLt
  simp only [getCount, and_255]
  rw [Nat.mod_eq_of_lt hb]

theorem getTerminal_eq (s : ReadState) :
    getTerminal s = (decide (128 ≤ (s.dict.mDict s.pos).val), s) := by
  have hb := (s.dict.mDict s.pos).isLt
  simp only [getTerminal, FLAG_TERMINAL_MASK, and_128]
  congr 1
  by_cases c : 128 ≤ (s.dict.mDict s.pos).val
  · have : (s.dict.mDict s.pos).val / 128 % 2 = 1 := by omega
    simp [this, c]
  · have : ¬ (s.dict.mDict s.pos).val / 128 % 2 = 1 := by omega
    simp [this, c]

theorem getFirstBitOfByte_eq (s : ReadState) :
    getFirstBitOfByte s = (decide (128 ≤ (s.dict.mDict s.pos).val), s) := by
  rw [← getTerminal_eq]
  rfl

theorem getSecondBitOfByte_eq (s : ReadState) :
    getSecondBitOfByte s = (decide ((s.dict.mDict s.pos).val / 64 % 2 = 1), s) := by
  simp only [getSecondBitOfByte, and_64]
  congr 1
  by_cases c : (s.dict.mDict s.pos).val / 64 % 2 = 1 <;> simp [c]

theorem Peek.run_state (k : Peek) (s : ReadState) : (k.run s).2 = s := by
  cases k <;> rfl

theorem runPeeks_eq (ks : List Peek) (s : ReadState) :
    runPeeks ks s = (ks.map (fun k => (k.run s).1), s) := by
  induction ks with
  | nil => rfl
  | cons k ks ih => simp [runPeeks, Peek.run_state, ih]

theorem wrapInt_inRange (x : Int) (h0 : -2147483648 ≤ x) (h1 : x ≤ INT_MAX) :
    wrapInt x = x := by
  unfold wrapInt
  unfold INT_MAX at h1
  omega

/-! ## C8: `getCount` -/

/-- C8: for a dictionary buffer and an in-range cursor `p`, `getCount` returns the unsigned
value of the byte at `p`, a number in `0..255`, leaves the cursor at `p + 1`, and leaves the
object, hence the buffer, unchanged. -/
theorem getCount_reads_byte_and_advances (buf : Buffer) (beyond : Int → UChar) (p : Nat)
    (h : p < buf.bytes.length) :
    (getCount ⟨UnigramDictionary.load buf beyond, p⟩).1 = (buf.bytes[p]).val ∧
    (getCount ⟨UnigramDictionary.load buf beyond, p⟩).1 ≤ 255 ∧
    (getCount ⟨UnigramDictionary.load buf beyond, p⟩).2.pos = (p : Int) + 1 ∧
    (getCount ⟨UnigramDictionary.load buf beyond, p⟩).2.dict = UnigramDictionary.load buf beyond := by
  have hb := (buf.bytes[p]).isLt
  have ha := buf.addressable
  rw [getCount_eq]
  simp only [load_inRange buf beyond p h]
  refine ⟨trivial, by omega, ?_, trivial⟩
  apply wrapInt_inRange <;> omega

/-- C8 at the one-byte buffer `85` and cursor 0: the value is 133 and the cursor moves to 1. -/
theorem getCount_reads_byte_and_advances_witness :
    (getCount ⟨UnigramDictionary.load oneByteBuffer zeroBeyond, (0 : Nat)⟩).1
        = (oneByteBuffer.bytes[0]).val ∧
    (getCount ⟨UnigramDictionary.load oneByteBuffer zeroBeyond, (0 : Nat)⟩).1 ≤ 255 ∧
    (getCount ⟨UnigramDictionary.load oneByteBuffer zeroBeyond, (0 : Nat)⟩).2.pos
        = ((0 : Nat) : Int) + 1 ∧
    (getCount ⟨UnigramDictionary.load oneByteBuffer zeroBeyond, (0 : Nat)⟩).2.dict
        = UnigramDictionary.load oneByteBuffer zeroBeyond :=
  getCount_reads_byte_and_advances oneByteBuffer zeroBeyond 0 (by decide)

/-! ## C4: the terminal flag -/

/-- C4: for a dictionary buffer and an in-range cursor `p`, `getTerminal` is true exactly when
bit `0x80` of the byte at `p` is set, that is when the byte is at least 128; it equals
`getFirstBitOfByte`; any byte that agrees with it in bit `0x80` (whatever its bit `0x40` and
its other bits are) gives the same answer; and terminal bytes exist both with the
address-follows bit (`0xC0`) and without it (`0x80`). -/
theorem getTerminal_is_top_bit (buf : Buffer) (beyond : Int → UChar) (p : Nat)
    (h : p < buf.bytes.length) :
    ((getTerminal ⟨UnigramDictionary.load buf beyond, p⟩).1 = true ↔
      (buf.bytes[p]).val &&& 0x80 ≠ 0) ∧
    ((getTerminal ⟨UnigramDictionary.load buf beyond, p⟩).1 = true ↔
      128 ≤ (buf.bytes[p]).val) ∧
    (getTerminal ⟨UnigramDictionary.load buf beyond, p⟩).1 =
      (getFirstBitOfByte ⟨UnigramDictionary.load buf beyond, p⟩).1 ∧
    (∀ (buf2 : Buffer) (beyond2 : Int → UChar) (q : Nat) (h2 : q < buf2.bytes.length),
      (buf2.bytes[q]).val &&& 0x80 = (buf.bytes[p]).val &&& 0x80 →
      (getTerminal ⟨UnigramDictionary.load buf2 beyond2, q⟩).1 =
        (getTerminal ⟨UnigramDictionary.load buf beyond, p⟩).1) ∧
    (∀ (d : UnigramDictionary) (q : Int),
      (d.mDict q = 0xC0 →
        (getTerminal ⟨d, q⟩).1 = true ∧ (getSecondBitOfByte ⟨d, q⟩).1 = true) ∧
      (d.mDict q = 0x80 →
        (getTerminal ⟨d, q⟩).1 = true ∧ (getSecondBitOfByte ⟨d, q⟩).1 = false)) := by
  have hb := (buf.bytes[p]).isLt
  refine ⟨?_, ?_, ?_, ?_, ?_⟩
  · rw [getTerminal_eq]
    simp only [load_inRange buf beyond p h, and_128, decide_eq_true_eq]
    split <;> omega
  · rw [getTerminal_eq]
    simp only [load_inRange buf beyond p h, decide_eq_true_eq]
  · rw [getTerminal_eq, getFirstBitOfByte_eq]
  · intro buf2 beyond2 q h2 hbit
    have hb2 := (buf2.bytes[q]).isLt
    rw [getTerminal_eq, getTerminal_eq]
    simp only [load_inRange buf beyond p h, load_inRange buf2 beyond2 q h2]
    rw [and_128, and_128] at hbit
    have hiff : 128 ≤ (buf2.bytes[q]).val ↔ 128 ≤ (buf.bytes[p]).val := by
      split at hbit <;> split at hbit <;> omega
    simp only [hiff]
  · intro d q
    constructor
    · intro hq
      rw [getTerminal_eq, getSecondBitOfByte_eq]
      simp only [hq]
      decide
    · intro hq
      rw [getTerminal_eq, getSecondBitOfByte_eq]
      simp only [hq]
      decide

/-- C4 at the one-byte buffer `85` and cursor 0; the byte `C5` of `flaggedBuffer` agrees with
`85` in bit `0x80` and differs in bit `0x40`; the bytes `C0` and `80` are both terminal. -/
theorem getTerminal_is_top_bit_witness :
    (0 < oneByteBuffer.bytes.length) ∧
    ((getTerminal ⟨UnigramDictionary.load oneByteBuffer zeroBeyond, (0 : Nat)⟩).1 = true ↔
      128 ≤ (oneByteBuffer.bytes[0]).val) ∧
    (getTerminal ⟨UnigramDictionary.load flaggedBuffer zeroBeyond, (0 : Nat)⟩).1 =
      (getTerminal ⟨UnigramDictionary.load oneByteBuffer zeroBeyond, (0 : Nat)⟩).1 ∧
    ((getTerminal ⟨⟨fun _ => 0xC0⟩, 0⟩).1 = true ∧
      (getSecondBitOfByte ⟨⟨fun _ => 0xC0⟩, 0⟩).1 = true) ∧
    ((getTerminal ⟨⟨fun _ => 0x80⟩, 0⟩).1 = true ∧
      (getSecondBitOfByte ⟨⟨fun _ => 0x80⟩, 0⟩).1 = false) :=
  have w := getTerminal_is_top_bit oneByteBuffer zeroBeyond 0 (by decide)
  ⟨by decide, w.2.1, w.2.2.2.1 flaggedBuffer zeroBeyond 0 (by decide) (by decide),
   (w.2.2.2.2 ⟨fun _ => 0xC0⟩ 0).1 rfl, (w.2.2.2.2 ⟨fun _ => 0x80⟩ 0).2 rfl⟩

/-! ## C5: the address-follows flag -/

/-- C5, as stated, fails at the byte 1: it is odd, yet `1 & FLAG_ADDRESS_MASK` is 0. -/
theorem flag_address_not_low_bit :
    ¬ (((1 : UChar).val &&& FLAG_ADDRESS_MASK ≠ 0) ↔ (1 : UChar).val % 2 = 1) := by
  decide

/-- C5 amended: the address-follows flag is bit `0x40`, the second-highest bit of the flag
byte: for every byte `b`, `(b & FLAG_ADDRESS_MASK) != 0` exactly when bit `0x40` of `b` is
set (`b / 64` is odd), and this is what `getSecondBitOfByte` returns on that byte. -/
theorem flag_address_is_bit_0x40 (b : UChar) :
    ((b.val &&& FLAG_ADDRESS_MASK ≠ 0) ↔ b.val / 64 % 2 = 1) ∧
    ((b.val &&& FLAG_ADDRESS_MASK ≠ 0) ↔ b.val.testBit 6 = true) ∧
    (∀ (d : UnigramDictionary) (q : Int), d.mDict q = b →
      ((getSecondBitOfByte ⟨d, q⟩).1 = true ↔ b.val &&& FLAG_ADDRESS_MASK ≠ 0)) := by
  have key : (b.val &&& FLAG_ADDRESS_MASK ≠ 0) ↔ b.val / 64 % 2 = 1 := by
    simp only [FLAG_ADDRESS_MASK, and_64]
    split <;> simp_all
  refine ⟨key, ?_, ?_⟩
  · rw [key, Nat.testBit_to_div_mod]
    simp
  · intro d q hq
    rw [getSecondBitOfByte_eq, key]
    simp [hq]

/-- C5 amended, at the byte `0x40` read through an object whose memory is all `0x40`. -/
theorem flag_address_is_bit_0x40_witness :
    (getSecondBitOfByte ⟨⟨fun _ => 0x40⟩, 0⟩).1 = true ↔
      (0x40 : UChar).val &&& FLAG_ADDRESS_MASK ≠ 0 :=
  (flag_address_is_bit_0x40 0x40).2.2 ⟨fun _ => 0x40⟩ 0 rfl

/-! ## C7: the bigram byte -/

/-- C7: for every byte `b` of a bigram entry the frequency `b & FLAG_BIGRAM_FREQ` is in
`0..127`, `(b & FLAG_BIGRAM_CONTINUED) != 0` holds exactly when `b >= 128`, and `b` is the sum
of the two parts; the two masks are disjoint and cover the byte; and a byte built from a
7-bit frequency `f` and a flag gives back exactly `f` and exactly that flag. -/
theorem bigram_byte_split (b : UChar) :
    b.val &&& FLAG_BIGRAM_FREQ ≤ 127 ∧
    ((b.val &&& FLAG_BIGRAM_CONTINUED ≠ 0) ↔ 128 ≤ b.val) ∧
    b.val = (b.val &&& FLAG_BIGRAM_FREQ) + (b.val &&& FLAG_BIGRAM_CONTINUED) ∧
    FLAG_BIGRAM_FREQ &&& FLAG_BIGRAM_CONTINUED = 0 ∧
    FLAG_BIGRAM_FREQ ||| FLAG_BIGRAM_CONTINUED = 0xFF ∧
    (∀ (f : Fin 128) (more : Bool),
      (f.val + (if more then 128 else 0)) &&& FLAG_BIGRAM_FREQ = f.val ∧
      (f.val + (if more then 128 else 0)) &&& FLAG_BIGRAM_CONTINUED
        = (if more then 128 else 0)) := by
  have hb := b.isLt
  simp only [FLAG_BIGRAM_FREQ, FLAG_BIGRAM_CONTINUED, and_127, and_128]
  refine ⟨by omega, ?_, ?_, by decide, by decide, ?_⟩
  · split <;> omega
  · split <;> omega
  · intro f more
    have hf := f.isLt
    cases more
    · simp only [Bool.false_eq_true, if_false, Nat.add_zero]
      constructor
      · omega
      · split <;> omega
    · simp only [if_true]
      constructor
      · omega
      · split <;> omega

/-! ## C6 and C9: the 22-bit address and the two flags -/

theorem xor_disjoint_and (v a b : Nat) (h : a &&& b = 0) : (v ^^^ a) &&& b = v &&& b := by
  apply Nat.eq_of_testBit_eq
  intro i
  have hi : (a &&& b).testBit i = false := by rw [h]; simp
  rw [Nat.testBit_and] at hi
  simp only [Nat.testBit_and, Nat.testBit_xor]
  cases hb : b.testBit i
  · simp
  · rw [hb] at hi
    simp only [Bool.and_true] at hi
    simp [hi]

theorem and_8388608 (n : Nat) : n &&& 8388608 = if n / 8388608 % 2 = 1 then 8388608 else 0 := by
  have h := Nat.and_two_pow n 23
  rw [Nat.testBit_to_div_mod] at h
  norm_num at h
  rw [h]
  by_cases c : n / 8388608 % 2 = 1 <;> simp [c]

theorem and_4194304 (n : Nat) : n &&& 4194304 = if n / 4194304 % 2 = 1 then 4194304 else 0 := by
  have h := Nat.and_two_pow n 22
  rw [Nat.testBit_to_div_mod] at h
  norm_num at h
  rw [h]
  by_cases c : n / 4194304 % 2 = 1 <;> simp [c]

/-- C6: for every three bytes the big-endian value `v` masked with `ADDRESS_MASK` is
`v mod 2^22`, so it is below 4194304, and masking twice is masking once; the explicit address
decoded at any cursor is such a masked value and so fits in 22 bits. -/
theorem address_mask_is_mod_2_22 (b0 b1 b2 : UChar) :
    (b0.val * 65536 + b1.val * 256 + b2.val) &&& ADDRESS_MASK
      = (b0.val * 65536 + b1.val * 256 + b2.val) % 2 ^ 22 ∧
    (b0.val * 65536 + b1.val * 256 + b2.val) &&& ADDRESS_MASK < 4194304 ∧
    ((b0.val * 65536 + b1.val * 256 + b2.val) &&& ADDRESS_MASK) &&& ADDRESS_MASK
      = (b0.val * 65536 + b1.val * 256 + b2.val) &&& ADDRESS_MASK ∧
    (∀ s : ReadState, getAddressExplicit s < 2 ^ 22 ∧
      getAddressExplicit s = ((s.dict.mDict s.pos).val * 65536
        + (s.dict.mDict (s.pos + 1)).val * 256 + (s.dict.mDict (s.pos + 2)).val) % 2 ^ 22) := by
  simp only [and_ADDRESS_MASK, getAddressExplicit]
  norm_num
  refine ⟨?_, ?_⟩
  · omega
  · intro s
    omega

/-- C9: the shifted terminal flag, the shifted address-follows flag and `ADDRESS_MASK` are
pairwise disjoint and together make `0xFFFFFF`; toggling either flag bit of a value leaves
its masked address unchanged, changing address bits leaves both flag bits unchanged; and for
three bytes under a cursor the two flag bits of the field are what `getTerminal` and
`getSecondBitOfByte` read from the first byte. -/
theorem flags_and_address_partition (v m : Nat) :
    (FLAG_TERMINAL_MASK <<< 16) &&& (FLAG_ADDRESS_MASK <<< 16) = 0 ∧
    (FLAG_TERMINAL_MASK <<< 16) &&& ADDRESS_MASK = 0 ∧
    (FLAG_ADDRESS_MASK <<< 16) &&& ADDRESS_MASK = 0 ∧
    (FLAG_TERMINAL_MASK <<< 16) ||| (FLAG_ADDRESS_MASK <<< 16) ||| ADDRESS_MASK = 0xFFFFFF ∧
    (v ^^^ (FLAG_TERMINAL_MASK <<< 16)) &&& ADDRESS_MASK = v &&& ADDRESS_MASK ∧
    (v ^^^ (FLAG_ADDRESS_MASK <<< 16)) &&& ADDRESS_MASK = v &&& ADDRESS_MASK ∧
    (v ^^^ (m &&& ADDRESS_MASK)) &&& (FLAG_TERMINAL_MASK <<< 16)
      = v &&& (FLAG_TERMINAL_MASK <<< 16) ∧
    (v ^^^ (m &&& ADDRESS_MASK)) &&& (FLAG_ADDRESS_MASK <<< 16)
      = v &&& (FLAG_ADDRESS_MASK <<< 16) ∧
    (∀ s : ReadState,
      ((getTerminal s).1 = true ↔
        ((s.dict.mDict s.pos).val * 65536 + (s.dict.mDict (s.pos + 1)).val * 256
          + (s.dict.mDict (s.pos + 2)).val) &&& (FLAG_TERMINAL_MASK <<< 16) ≠ 0) ∧
      ((getSecondBitOfByte s).1 = true ↔
        ((s.dict.mDict s.pos).val * 65536 + (s.dict.mDict (s.pos + 1)).val * 256
          + (s.dict.mDict (s.pos + 2)).val) &&& (FLAG_ADDRESS_MASK <<< 16) ≠ 0)) := by
  have d1 : (FLAG_TERMINAL_MASK <<< 16) &&& ADDRESS_MASK = 0 := by decide
  have d2 : (FLAG_ADDRESS_MASK <<< 16) &&& ADDRESS_MASK = 0 := by decide
  have d3 : ∀ k : Nat, k &&& ADDRESS_MASK = 0 → (m &&& ADDRESS_MASK) &&& k = 0 := by
    intro k hk
    rw [Nat.and_assoc, Nat.and_comm ADDRESS_MASK k, hk, Nat.and_zero]
  refine ⟨by decide, d1, d2, by decide, xor_disjoint_and _ _ _ d1, xor_disjoint_and _ _ _ d2,
    xor_disjoint_and _ _ _ (d3 _ d1), xor_disjoint_and _ _ _ (d3 _ d2), ?_⟩
  intro s
  have h0 := (s.dict.mDict s.pos).isLt
  have h1 := (s.dict.mDict (s.pos + 1)).isLt
  have h2 := (s.dict.mDict (s.pos + 2)).isLt
  have e1 : FLAG_TERMINAL_MASK <<< 16 = 8388608 := by decide
  have e2 : FLAG_ADDRESS_MASK <<< 16 = 4194304 := by decide
  rw [getTerminal_eq, getSecondBitOfByte_eq, e1, e2, and_8388608, and_4194304]
  simp only [decide_eq_true_eq]
  constructor
  · split <;> omega
  · split <;> omega

/-! ## C10: the inspecting reads leave the state alone -/

/-- C10: for a dictionary buffer and an in-range cursor `p`, each of `getTerminal`,
`getFirstBitOfByte`, `getSecondBitOfByte` returns the state it was given (cursor and object);
any sequence of them, in any order, ends in the starting state and each call in it returns
what a single call on the starting state returns; a `getCount` after them equals a `getCount`
before them, reads the byte at `p` they inspected, and moves the cursor, to `p + 1`. -/
theorem peeks_leave_state_getCount_moves (buf : Buffer) (beyond : Int → UChar) (p : Nat)
    (h : p < buf.bytes.length) (calls : List Peek) :
    (getTerminal ⟨UnigramDictionary.load buf beyond, p⟩).2
      = ⟨UnigramDictionary.load buf beyond, p⟩ ∧
    (getFirstBitOfByte ⟨UnigramDictionary.load buf beyond, p⟩).2
      = ⟨UnigramDictionary.load buf beyond, p⟩ ∧
    (getSecondBitOfByte ⟨UnigramDictionary.load buf beyond, p⟩).2
      = ⟨UnigramDictionary.load buf beyond, p⟩ ∧
    (runPeeks calls ⟨UnigramDictionary.load buf beyond, p⟩).2
      = ⟨UnigramDictionary.load buf beyond, p⟩ ∧
    (runPeeks calls ⟨UnigramDictionary.load buf beyond, p⟩).1
      = calls.map (fun k => (k.run ⟨UnigramDictionary.load buf beyond, p⟩).1) ∧
    getCount (runPeeks calls ⟨UnigramDictionary.load buf beyond, p⟩).2
      = getCount ⟨UnigramDictionary.load buf beyond, p⟩ ∧
    (getCount (runPeeks calls ⟨UnigramDictionary.load buf beyond, p⟩).2).1
      = (buf.bytes[p]).val ∧
    ((getTerminal ⟨UnigramDictionary.load buf beyond, p⟩).1
      = decide (128 ≤ (buf.bytes[p]).val)) ∧
    ((getSecondBitOfByte ⟨UnigramDictionary.load buf beyond, p⟩).1
      = decide ((buf.bytes[p]).val / 64 % 2 = 1)) ∧
    (getCount ⟨UnigramDictionary.load buf beyond, p⟩).2.pos = (p : Int) + 1 ∧
    (getCount ⟨UnigramDictionary.load buf beyond, p⟩).2.pos ≠ (p : Int) ∧
    (getCount ⟨UnigramDictionary.load buf beyond, p⟩).2.dict
      = UnigramDictionary.load buf beyond := by
  have ha := buf.addressable
  have hpos : wrapInt ((p : Int) + 1) = (p : Int) + 1 := by
    apply wrapInt_inRange <;> omega
  refine ⟨rfl, rfl, rfl, ?_, ?_, ?_, ?_, ?_, ?_, ?_, ?_, rfl⟩
  · rw [runPeeks_eq]
  · rw [runPeeks_eq]
  · rw [runPeeks_eq]
  · rw [runPeeks_eq, getCount_eq]
    simp only [load_inRange buf beyond p h]
  · rw [getTerminal_eq]
    simp only [load_inRange buf beyond p h]
  · rw [getSecondBitOfByte_eq]
    simp only [load_inRange buf beyond p h]
  · rw [getCount_eq]
    exact hpos
  · rw [getCount_eq]
    simp only [hpos]
    omega

/-- C10 at the one-byte buffer `85`, cursor 0, and the calls terminal, second bit, first bit,
terminal: the state is the starting one and the following `getCount` is unchanged. -/
theorem peeks_leave_state_getCount_moves_witness :
    (runPeeks [Peek.terminal, Peek.secondBit, Peek.firstBit, Peek.terminal]
        ⟨UnigramDictionary.load oneByteBuffer zeroBeyond, (0 : Nat)⟩).2
      = ⟨UnigramDictionary.load oneByteBuffer zeroBeyond, (0 : Nat)⟩ ∧
    getCount (runPeeks [Peek.terminal, Peek.secondBit, Peek.firstBit, Peek.terminal]
        ⟨UnigramDictionary.load oneByteBuffer zeroBeyond, (0 : Nat)⟩).2
      = getCount ⟨UnigramDictionary.load oneByteBuffer zeroBeyond, (0 : Nat)⟩ :=
  have w := peeks_leave_state_getCount_moves oneByteBuffer zeroBeyond 0 (by decide)
    [Peek.terminal, Peek.secondBit, Peek.firstBit, Peek.terminal]
  ⟨w.2.2.2.1, w.2.2.2.2.2.1⟩

/-! ## C3: reads past the end of the buffer -/

/-- C3, as stated, fails: with the one-byte buffer `85` (`n = 1`) and zero memory behind it,
at the cursor `p = 1 >= n` none of the four reads reports anything: `getCount` returns 0 and
moves the cursor to 2, and the three flag reads return `false`. -/
theorem reads_past_end_return_values :
    (oneByteBuffer.bytes.length : Int) ≤ 1 ∧
    getCount ⟨UnigramDictionary.load oneByteBuffer zeroBeyond, 1⟩
      = (0, ⟨UnigramDictionary.load oneByteBuffer zeroBeyond, 2⟩) ∧
    getTerminal ⟨UnigramDictionary.load oneByteBuffer zeroBeyond, 1⟩
      = (false, ⟨UnigramDictionary.load oneByteBuffer zeroBeyond, 1⟩) ∧
    getFirstBitOfByte ⟨UnigramDictionary.load oneByteBuffer zeroBeyond, 1⟩
      = (false, ⟨UnigramDictionary.load oneByteBuffer zeroBeyond, 1⟩) ∧
    getSecondBitOfByte ⟨UnigramDictionary.load oneByteBuffer zeroBeyond, 1⟩
      = (false, ⟨UnigramDictionary.load oneByteBuffer zeroBeyond, 1⟩) := by
  have hm : (UnigramDictionary.load oneByteBuffer zeroBeyond).mDict 1 = 0 :=
    load_beyond oneByteBuffer zeroBeyond 1 (by decide)
  refine ⟨by decide, ?_, ?_, ?_, ?_⟩
  · rw [getCount_eq]
    simp only [hm]
    rfl
  · rw [getTerminal_eq]
    simp only [hm]
    rfl
  · rw [getFirstBitOfByte_eq]
    simp only [hm]
    rfl
  · rw [getSecondBitOfByte_eq]
    simp only [hm]
    rfl

/-- C3 amended: for a dictionary buffer of length `n` and a cursor `p < n` each of the four
reads returns a value, the one the buffer byte at `p` determines; the reads take no buffer
length and check no bound, so for `p >= n` they return, without any failure report, the value
computed the same way from the byte `beyond p` that the memory behind the buffer holds. -/
theorem reads_are_unchecked (buf : Buffer) (beyond : Int → UChar) :
    (∀ (p : Nat) (h : p < buf.bytes.length),
      (getCount ⟨UnigramDictionary.load buf beyond, p⟩).1 = (buf.bytes[p]).val ∧
      (getTerminal ⟨UnigramDictionary.load buf beyond, p⟩).1
        = decide (128 ≤ (buf.bytes[p]).val) ∧
      (getFirstBitOfByte ⟨UnigramDictionary.load buf beyond, p⟩).1
        = decide (128 ≤ (buf.bytes[p]).val) ∧
      (getSecondBitOfByte ⟨UnigramDictionary.load buf beyond, p⟩).1
        = decide ((buf.bytes[p]).val / 64 % 2 = 1)) ∧
    (∀ p : Int, (buf.bytes.length : Int) ≤ p →
      (getCount ⟨UnigramDictionary.load buf beyond, p⟩).1 = (beyond p).val ∧
      (getTerminal ⟨UnigramDictionary.load buf beyond, p⟩).1
        = decide (128 ≤ (beyond p).val) ∧
      (getFirstBitOfByte ⟨UnigramDictionary.load buf beyond, p⟩).1
        = decide (128 ≤ (beyond p).val) ∧
      (getSecondBitOfByte ⟨UnigramDictionary.load buf beyond, p⟩).1
        = decide ((beyond p).val / 64 % 2 = 1)) := by
  constructor
  · intro p h
    rw [getCount_eq, getTerminal_eq, getFirstBitOfByte_eq, getSecondBitOfByte_eq]
    simp only [load_inRange buf beyond p h]
    exact ⟨trivial, trivial, trivial, trivial⟩
  · intro p h
    rw [getCount_eq, getTerminal_eq, getFirstBitOfByte_eq, getSecondBitOfByte_eq]
    simp only [load_beyond buf beyond p h]
    exact ⟨trivial, trivial, trivial, trivial⟩

/-- C3 amended, at the one-byte buffer `85`: in range at cursor 0, past the end at cursor 1. -/
theorem reads_are_unchecked_witness :
    (getCount ⟨UnigramDictionary.load oneByteBuffer zeroBeyond, (0 : Nat)⟩).1
      = (oneByteBuffer.bytes[0]).val ∧
    (getCount ⟨UnigramDictionary.load oneByteBuffer zeroBeyond, 1⟩).1 = (zeroBeyond 1).val :=
  ⟨((reads_are_unchecked oneByteBuffer zeroBeyond).1 0 (by decide)).1,
   ((reads_are_unchecked oneByteBuffer zeroBeyond).2 1 (by decide)).1⟩

/-! ## C1: the ranked candidate list -/

theorem insert_keeps_order (c : Candidate) (slots : List Candidate)
    (h : (frequencies slots).Pairwise (fun a b => a ≥ b)) :
    (frequencies (slots.take (insertionPoint c.frequency slots)
      ++ c :: slots.drop (insertionPoint c.frequency slots))).Pairwise (fun a b => a ≥ b) := by
  induction slots with
  | nil => simp [frequencies, insertionPoint]
  | cons e es ih =>
    simp only [frequencies, List.map_cons, List.pairwise_cons] at h
    obtain ⟨hhead, htail⟩ := h
    by_cases hgt : c.frequency > e.frequency
    · simp only [insertionPoint, hgt, if_true, List.take_zero, List.drop_zero, List.nil_append,
        frequencies, List.map_cons, List.pairwise_cons]
      refine ⟨?_, hhead, htail⟩
      intro x hx
      rcases List.mem_cons.mp hx with rfl | hx
      · omega
      · have := hhead x hx
        omega
    · simp only [insertionPoint, hgt, if_false, List.take_succ_cons, List.drop_succ_cons,
        List.cons_append, frequencies, List.map_cons, List.pairwise_cons]
      refine ⟨?_, ih htail⟩
      intro x hx
      simp only [List.map_append, List.map_cons, List.mem_append, List.mem_cons,
        List.mem_map] at hx
      rcases hx with ⟨a, ha, rfl⟩ | rfl | ⟨a, ha, rfl⟩
      · exact hhead _ (List.mem_map.mpr ⟨a, List.mem_of_mem_take ha, rfl⟩)
      · omega
      · exact hhead _ (List.mem_map.mpr ⟨a, List.mem_of_mem_drop ha, rfl⟩)

theorem addWord_keeps_ranked (MAX_WORDS : Nat) (slots : List Candidate) (word : List UShort)
    (frequency : Int) (h : Ranked MAX_WORDS slots) :
    Ranked MAX_WORDS (addWord MAX_WORDS slots word frequency).2 := by
  unfold addWord
  by_cases hlt : insertionPoint frequency slots < MAX_WORDS
  · simp only [hlt, if_true]
    constructor
    · have hs := insert_keeps_order ⟨word, frequency⟩ slots h.1
      simp only [frequencies, List.map_take] at hs ⊢
      exact hs.sublist (List.take_sublist _ _)
    · exact List.length_take_le _ _
  · simp only [hlt, if_false]
    exact h

theorem foldl_addWord_ranked (MAX_WORDS : Nat) (calls : List Candidate) :
    ∀ slots : List Candidate, Ranked MAX_WORDS slots →
      Ranked MAX_WORDS (calls.foldl
        (fun slots call => (addWord MAX_WORDS slots call.word call.frequency).2) slots) := by
  induction calls with
  | nil => intro slots h; exact h
  | cons c cs ih =>
    intro slots h
    exact ih _ (addWord_keeps_ranked MAX_WORDS slots c.word c.frequency h)

theorem insertionPoint_of_all_ge (frequency : Int) (slots : List Candidate)
    (h : ∀ e ∈ slots, frequency ≤ e.frequency) :
    insertionPoint frequency slots = slots.length := by
  induction slots with
  | nil => rfl
  | cons e es ih =>
    have he : ¬ frequency > e.frequency := by
      have := h e (List.mem_cons_self _ _)
      omega
    simp only [insertionPoint, he, if_false, List.length_cons]
    rw [ih (fun x hx => h x (List.mem_cons_of_mem _ hx))]

/-- The model meets the other sentence of the specification on the list: a full list rejects
an insertion that scores at or below every stored entry, and is left as it was. -/
theorem addWord_full_rejects (slots : List Candidate) (word : List UShort) (frequency : Int)
    (h : ∀ e ∈ slots, frequency ≤ e.frequency) :
    addWord slots.length slots word frequency = (false, slots) := by
  simp [addWord, insertionPoint_of_all_ge frequency slots h]

/-- The list on an example: capacity 3, scores 5, 9, 7, 7, 3 added in this order; the later
7 goes behind the earlier one, 5 is pushed out, 3 is rejected. -/
theorem addWords_example :
    addWords 3 [⟨[1], 5⟩, ⟨[2], 9⟩, ⟨[3], 7⟩, ⟨[4], 7⟩, ⟨[5], 3⟩]
      = [⟨[2], 9⟩, ⟨[3], 7⟩, ⟨[4], 7⟩] := by
  decide

/-- C1: for every capacity `MAX_WORDS` and every sequence of `addWord` calls on a list that
starts empty, after each call (after the first `k` calls, for every `k`) the stored
frequencies are non-increasing from the first slot to the last occupied slot and at most
`MAX_WORDS` slots are occupied. -/
theorem addWord_list_sorted_and_bounded (MAX_WORDS : Nat) (calls : List Candidate) (k : Nat) :
    (frequencies (addWords MAX_WORDS (calls.take k))).Sorted (fun a b => a ≥ b) ∧
    (addWords MAX_WORDS (calls.take k)).length ≤ MAX_WORDS := by
  have h := foldl_addWord_ranked MAX_WORDS (calls.take k) [] ⟨List.Pairwise.nil, Nat.zero_le _⟩
  exact h

/-! ## C2: exact word validation -/

theorem siblingLoop_iff (codec : NodeCodec) (dict : UnigramDictionary) (c : UShort)
    (onMatch : Node → Bool) (count : Nat) :
    ∀ pos : Int, siblingLoop codec dict c onMatch count pos = true ↔
      ∃ n ∈ siblingsFrom codec dict count pos,
        codec.toLowerCase n.c = codec.toLowerCase c ∧ onMatch n = true := by
  induction count with
  | zero => intro pos; simp [siblingLoop, siblingsFrom]
  | succ k ih =>
    intro pos
    simp only [siblingLoop, siblingsFrom, List.mem_cons]
    by_cases hm : codec.toLowerCase (codec.readNode dict pos).1.c = codec.toLowerCase c ∧
        onMatch (codec.readNode dict pos).1 = true
    · simp only [hm, and_self, if_true, true_iff]
      exact ⟨_, Or.inl rfl, hm⟩
    · rw [if_neg hm, ih]
      constructor
      · rintro ⟨n, hn, hc⟩
        exact ⟨n, Or.inr hn, hc⟩
      · rintro ⟨n, hn | hn, hc⟩
        · subst hn
          exact absurd hc hm
        · exact ⟨n, hn, hc⟩

theorem hasWordPath_nil (codec : NodeCodec) (dict : UnigramDictionary) (pos : Int) :
    ¬ HasWordPath codec dict pos [] := by
  rintro ⟨path, -, hlen, -, last, hlast, -⟩
  have : path = [] := List.length_eq_zero.mp hlen
  subst this
  simp at hlast

theorem hasWordPath_single (codec : NodeCodec) (dict : UnigramDictionary) (pos : Int)
    (c : UShort) :
    HasWordPath codec dict pos [c] ↔
      ∃ n ∈ siblings codec dict pos,
        codec.toLowerCase n.c = codec.toLowerCase c ∧ n.terminal = true := by
  constructor
  · rintro ⟨path, hpath, hlen, hmap, last, hlast, hterm⟩
    match path, hpath, hlen, hmap, hlast with
    | [n], hpath, _, hmap, hlast =>
      simp only [List.getLast?_singleton, Option.some.injEq] at hlast
      subst hlast
      simp only [List.map_cons, List.map_nil, List.cons.injEq, and_true] at hmap
      exact ⟨n, hpath.1, hmap, hterm⟩
  · rintro ⟨n, hn, hc, ht⟩
    exact ⟨[n], ⟨hn, trivial⟩, rfl, by simp [hc], n, rfl, ht⟩

theorem hasWordPath_cons (codec : NodeCodec) (dict : UnigramDictionary) (pos : Int)
    (c c2 : UShort) (rest : List UShort) :
    HasWordPath codec dict pos (c :: c2 :: rest) ↔
      ∃ n ∈ siblings codec dict pos, codec.toLowerCase n.c = codec.toLowerCase c ∧
        HasWordPath codec dict n.children (c2 :: rest) := by
  constructor
  · rintro ⟨path, hpath, hlen, hmap, last, hlast, hterm⟩
    match path, hpath, hlen, hmap, hlast with
    | n :: n2 :: ns, hpath, hlen, hmap, hlast =>
      simp only [List.map_cons, List.cons.injEq] at hmap
      refine ⟨n, hpath.1, hmap.1, n2 :: ns, hpath.2, ?_, ?_, last, ?_, hterm⟩
      · simpa using hlen
      · simp only [List.map_cons, List.cons.injEq]
        exact hmap.2
      · rw [← hlast]
        simp [List.getLast?_cons_cons]
  · rintro ⟨n, hn, hc, path, hpath, hlen, hmap, last, hlast, hterm⟩
    match path, hpath, hlen, hmap, hlast with
    | n2 :: ns, hpath, hlen, hmap, hlast =>
      refine ⟨n :: n2 :: ns, ⟨hn, hpath⟩, ?_, ?_, last, ?_, hterm⟩
      · simpa using hlen
      · simp only [List.map_cons, List.cons.injEq] at hmap ⊢
        exact ⟨hc, hmap⟩
      · rw [← hlast]
        simp [List.getLast?_cons_cons]

theorem isValidWordRec_iff (codec : NodeCodec) (dict : UnigramDictionary)
    (word : List UShort) :
    ∀ pos : Int, isValidWordRec codec dict word pos = true ↔
      HasWordPath codec dict pos word := by
  induction word with
  | nil =>
    intro pos
    simp only [isValidWordRec, Bool.false_eq_true, false_iff]
    exact hasWordPath_nil codec dict pos
  | cons c tail ih =>
    intro pos
    cases tail with
    | nil =>
      rw [hasWordPath_single]
      simp only [isValidWordRec, siblingLoop_iff, siblings]
    | cons c2 rest =>
      rw [hasWordPath_cons]
      simp only [isValidWordRec, siblingLoop_iff, siblings, ih]

theorem hasWordPath_congr (codec : NodeCodec) (dict : UnigramDictionary) (root : Int)
    (word word2 : List UShort)
    (h : word2.map codec.toLowerCase = word.map codec.toLowerCase) :
    HasWordPath codec dict root word2 ↔ HasWordPath codec dict root word := by
  have hlen : word2.length = word.length := by
    have := congrArg List.length h
    simpa using this
  unfold HasWordPath
  rw [h, hlen]

/-- C2: for every dictionary, every node codec and every word, `isValidWord` returns true
exactly when there is a path of trie nodes from the root, one node per character, whose
case-folded characters are the case-folded characters of the word and whose last node is
terminal; so a word that differs in a folded character from every such path is rejected, and
two words with the same case-folded characters (a word and its upper-case variant) get the
same answer. -/
theorem isValidWord_iff_path (codec : NodeCodec) (dict : UnigramDictionary) (root : Int)
    (word : List UShort) :
    (isValidWord codec dict root word = true ↔ HasWordPath codec dict root word) ∧
    (∀ word2 : List UShort,
      word2.map codec.toLowerCase = word.map codec.toLowerCase →
      isValidWord codec dict root word2 = isValidWord codec dict root word) := by
  refine ⟨isValidWordRec_iff codec dict word root, ?_⟩
  intro word2 h
  have h1 := isValidWordRec_iff codec dict word root
  have h2 := isValidWordRec_iff codec dict word2 root
  have h3 := hasWordPath_congr codec dict root word word2 h
  unfold isValidWord
  cases hv : isValidWordRec codec dict word root <;>
    cases hv2 : isValidWordRec codec dict word2 root <;> simp_all

/-- C2 on the example dictionary holding `cat`: `Cat` and `cat` fold to the same characters,
get the same answer, and that answer is true, while `cats` and `ca` are rejected. -/
theorem isValidWord_iff_path_witness :
    ([0x43, 0x61, 0x74] : List UShort).map exampleCodec.toLowerCase
      = ([0x63, 0x61, 0x74] : List UShort).map exampleCodec.toLowerCase ∧
    isValidWord exampleCodec (UnigramDictionary.load catBuffer zeroBeyond) 0 [0x43, 0x61, 0x74]
      = isValidWord exampleCodec (UnigramDictionary.load catBuffer zeroBeyond) 0
          [0x63, 0x61, 0x74] ∧
    isValidWord exampleCodec (UnigramDictionary.load catBuffer zeroBeyond) 0 [0x63, 0x61, 0x74]
      = true ∧
    isValidWord exampleCodec (UnigramDictionary.load catBuffer zeroBeyond) 0
      [0x63, 0x61, 0x74, 0x73] = false ∧
    isValidWord exampleCodec (UnigramDictionary.load catBuffer zeroBeyond) 0 [0x63, 0x61]
      = false :=
  ⟨by decide,
   (isValidWord_iff_path exampleCodec (UnigramDictionary.load catBuffer zeroBeyond) 0
      [0x63, 0x61, 0x74]).2 [0x43, 0x61, 0x74] (by decide),
   by decide, by decide, by decide⟩

end latinime
